import Mathlib

/-!
Verification of the `tomdtopdf` repository's two conversion tools against
their natural-language specification.

The development shallowly embeds the repository's own functions
(`src/2html2md.py` and `src/tomdtopdf.py`) over `List Char` / `String`
and a small HTML node tree.  Definitions are translated from the Python
source; definitions whose name ends in `_spec` follow the specification's
words instead and are compared with the source-side definitions.

Conventions used for the embedding:
* Python `str` values are modelled as Lean `String` / `List Char`
  (examples in the spec are ASCII; character-class predicates such as
  `\w` and `\s` are modelled over their ASCII meaning).
* Regular-expression substitutions are modelled as left-to-right scanners
  over `List Char`, matching Python `re.sub` / `re.search` semantics for
  the concrete patterns used by the source.
* The mutable BeautifulSoup tree is modelled as an inductive tree, and
  each in-place mutation pass as a structural map over that tree.
-/

namespace TomdToPdf

/-! ## Character classes (ASCII fragment of Python's `\s` and `\w`) -/

/-- Python whitespace test (`str.isspace` / regex `\s`), ASCII fragment:
space, tab, line feed, carriage return, vertical tab, form feed. -/
def py_isspace (c : Char) : Bool :=
  c = ' ' || c = '\t' || c = '\n' || c = '\r' || c = '\x0b' || c = '\x0c'

/-- Python word-character test (regex `\w`), ASCII fragment:
letters, digits and underscore. -/
def py_isword (c : Char) : Bool :=
  c.isAlphanum || c = '_'

/-! ## `clean_google_url`  (src/2html2md.py lines 7-9)

```python
def clean_google_url(url):
    match = re.search(r'q=(https?://[^&]+)', url)
    return match.group(1) if match else url
```

`re.search` scans for the leftmost position at which the pattern
matches; `https?` prefers the `s` branch and `[^&]+` greedily takes the
longest nonempty run of non-`&` characters. -/

/-- The `[^&]+` part: the greedy nonempty capture of non-`&` characters,
prefixed by the already-matched scheme. -/
def q_capture (sch : List Char) (rest : List Char) : Option (List Char) :=
  if rest.takeWhile (fun c => c ≠ '&') = [] then none
  else some (sch ++ rest.takeWhile (fun c => c ≠ '&'))

/-- Attempt to match `q=(https?://[^&]+)` at the head of the list;
returns the captured group on success.  At a fixed position `https?` can
match in at most one way (after `q=http` the next character decides
between `s://` and `://`), so the two alternatives are disjoint. -/
def try_q (l : List Char) : Option (List Char) :=
  if l.take 10 = "q=https://".data then q_capture "https://".data (l.drop 10)
  else if l.take 9 = "q=http://".data then q_capture "http://".data (l.drop 9)
  else none

/-- Leftmost match of `q=(https?://[^&]+)`: the scan of `re.search`. -/
def find_q : List Char → Option (List Char)
  | [] => none
  | c :: rest =>
    match try_q (c :: rest) with
    | some r => some r
    | none => find_q rest

/-- Function `clean_google_url` from src/2html2md.py. -/
def clean_google_url (url : String) : String :=
  match find_q url.data with
  | some inner => ⟨inner⟩
  | none => url

/-- Specification-side occurrence predicate over character lists: the
text contains, anywhere, the substring pattern
`q=<scheme>://<nonempty run of non-&>`. -/
def hasQL (l : List Char) : Prop :=
  ∃ (pre sch cap suf : List Char),
    (sch = "https://".data ∨ sch = "http://".data) ∧
    cap ≠ [] ∧ (∀ c ∈ cap, c ≠ '&') ∧
    l = pre ++ 'q' :: '=' :: (sch ++ (cap ++ suf))

/-- The occurrence predicate on strings. -/
def hasQPattern (url : String) : Prop :=
  hasQL url.data

/-! ## `increase_heading_levels`  (src/2html2md.py lines 17-22)

```python
def increase_heading_levels(markdown_content):
    def replace_heading(match):
        heading = match.group(1)
        return '#' + heading
    return re.sub(r'^(#{1,6})', replace_heading, markdown_content, flags=re.MULTILINE)
```

In MULTILINE mode `^` matches at the start of the text and right after
each `'\n'`.  The replacement re-emits the captured hashes with one more
`'#'` in front, so the pass prepends exactly one `'#'` at each line start
whose first character is `'#'`; the `{1,6}` bound only limits how many
characters the match consumes, which the replacement preserves. -/

/-- Scanner for the MULTILINE substitution: `atStart` records whether the
current position is a line start (start of text or just after `'\n'`). -/
def ihl_go : Bool → List Char → List Char
  | _, [] => []
  | atStart, c :: rest =>
    if atStart ∧ c = '#' then '#' :: c :: ihl_go false rest
    else c :: ihl_go (c = '\n') rest

/-- Function `increase_heading_levels` from src/2html2md.py. -/
def increase_heading_levels (s : String) : String :=
  ⟨ihl_go true s.data⟩

/-- Splitting a character list at `'\n'` (the line view used by the
specification's per-line description). -/
def splitNL : List Char → List (List Char)
  | [] => [[]]
  | c :: rest =>
    if c = '\n' then [] :: splitNL rest
    else
      match splitNL rest with
      | [] => [[c]]
      | l :: ls => (c :: l) :: ls

/-- Joining the line view back with `'\n'` separators. -/
def joinNL : List (List Char) → List Char
  | [] => []
  | [l] => l
  | l :: ls => l ++ '\n' :: joinNL ls

/-- One line of the specification-side description: a line beginning
with a `'#'` character gets exactly one additional `'#'` prepended. -/
def promote_line (l : List Char) : List Char :=
  match l with
  | '#' :: _ => '#' :: l
  | _ => l

/-- Specification-side description of heading promotion: the per-line
promotion applied independently to every line of the text. -/
def increase_heading_levels_spec (s : String) : String :=
  ⟨joinNL ((splitNL s.data).map promote_line)⟩

/-! ## `ensure_space_before_links`  (src/2html2md.py lines 24-25)

```python
def ensure_space_before_links(markdown_content):
    return re.sub(r'(?<!\!)\b(\S)(\[)', r'\1 \2', markdown_content)
```

A match at position `p` requires: the character before `p` (if any) is
not `'!'` (lookbehind), a word boundary at `p`, a non-whitespace
character at `p`, and `'['` at `p + 1`.  The replacement inserts one
space between the two; scanning resumes after the consumed `'['`. -/

/-- Word boundary test at the current position, given the previous
character of the original text (`none` at the start of text). -/
def word_boundary (prev : Option Char) (c : Char) : Bool :=
  match prev with
  | none => py_isword c
  | some p => py_isword p != py_isword c

/-- Scanner for the substitution; `prev` is the character preceding the
current position in the original text. -/
def esb_go : Option Char → List Char → List Char
  | _, [] => []
  | _, [c] => [c]
  | prev, c1 :: c2 :: rest =>
    if word_boundary prev c1 ∧ prev ≠ some '!' ∧ ¬ py_isspace c1 ∧ c2 = '[' then
      c1 :: ' ' :: '[' :: esb_go (some '[') rest
    else
      c1 :: esb_go (some c1) (c2 :: rest)

/-- Function `ensure_space_before_links` from src/2html2md.py. -/
def ensure_space_before_links (s : String) : String :=
  ⟨esb_go none s.data⟩

/-! ## The document tree and the in-place passes of `convert_html_to_md`

The BeautifulSoup document tree is an ordered tree whose nodes are text
nodes or element nodes (tag, attributes, children).  `find_all(tag)`
enumerates every descendant element with that tag, and each pass mutates
the found nodes in place, which a structural map over the tree models. -/

mutual

inductive Node where
  | text : String → Node
  | elem : String → List (String × String) → NodeList → Node
deriving DecidableEq, Repr

inductive NodeList where
  | nil : NodeList
  | cons : Node → NodeList → NodeList
deriving DecidableEq, Repr

end

/-- Attribute lookup, `tag.get(name)` / `tag[name]`. -/
def attr_get (name : String) (attrs : List (String × String)) : Option String :=
  match attrs.find? (fun kv => kv.1 = name) with
  | some kv => some kv.2
  | none => none

/-- Attribute update `tag[name] = value`: replaces the value of the first
binding of `name`, keeping attribute order. -/
def attr_set (name value : String) : List (String × String) → List (String × String)
  | [] => [(name, value)]
  | kv :: rest =>
    if kv.1 = name then (name, value) :: rest
    else kv :: attr_set name value rest

/-! ### `remove_line_breaks_within_paragraphs`  (src/2html2md.py lines 11-15)

```python
def remove_line_breaks_within_paragraphs(soup):
    for p in soup.find_all('p'):
        for text_node in p.find_all(string=True):
            new_text = text_node.replace('\n', ' ').replace('\r', ' ')
            text_node.replace_with(new_text)
```

Every text node that has a `<p>` ancestor is rewritten (a text node
found under several nested `<p>` tags is rewritten more than once, but
the rewrite is idempotent, so tracking a single in-paragraph flag is
faithful). -/

/-- Python `str.replace(old, new)` for a single-character pattern:
every occurrence of `old` is replaced, independently. -/
def replace_char (old new : Char) (s : String) : String :=
  ⟨s.data.map (fun c => if c = old then new else c)⟩

/-- Text rewrite applied inside paragraphs:
`text.replace('\n', ' ').replace('\r', ' ')`. -/
def remove_breaks (s : String) : String :=
  replace_char '\r' ' ' (replace_char '\n' ' ' s)

mutual

/-- Tree pass of `remove_line_breaks_within_paragraphs`; `inP` records
whether the node lies under a `<p>` element. -/
def rlb_node (inP : Bool) : Node → Node
  | .text s => if inP then .text (remove_breaks s) else .text s
  | .elem tag attrs children =>
    .elem tag attrs (rlb_list (inP || tag = "p") children)

def rlb_list (inP : Bool) : NodeList → NodeList
  | .nil => .nil
  | .cons n rest => .cons (rlb_node inP n) (rlb_list inP rest)

end

/-- Function `remove_line_breaks_within_paragraphs` from src/2html2md.py applied
to a whole document. -/
def remove_line_breaks_within_paragraphs (doc : Node) : Node :=
  rlb_node false doc

/-- Specification-side text rewrite: each line-feed and each
carriage-return character becomes exactly one space, each replacement
made independently (a single pass over the characters). -/
def remove_breaks_spec (s : String) : String :=
  ⟨s.data.map (fun c => if c = '\n' ∨ c = '\r' then ' ' else c)⟩

mutual

/-- Specification-side description of the line-break-collapsing pass:
text nodes contained in a paragraph element are rewritten with
`remove_breaks_spec`; all other text nodes are left unchanged. -/
def rlb_node_spec (inP : Bool) : Node → Node
  | .text s => if inP then .text (remove_breaks_spec s) else .text s
  | .elem tag attrs children =>
    .elem tag attrs (rlb_list_spec (inP || tag = "p") children)

def rlb_list_spec (inP : Bool) : NodeList → NodeList
  | .nil => .nil
  | .cons n rest => .cons (rlb_node_spec inP n) (rlb_list_spec inP rest)

end

/-! ### Image pass of `convert_html_to_md`  (src/2html2md.py lines 31-34)

```python
for img in soup.find_all('img'):
    src = img.get('src')
    if src:
        img['src'] = os.path.join('images', os.path.basename(src))
```

`os.path.basename` keeps the part after the last `'/'` (a pure string
operation), and `os.path.join('images', b)` is `"images/" ++ b` because
a basename never contains `'/'`.  `if src:` skips both a missing `src`
attribute (`get` returns `None`) and an empty-string value. -/

/-- Python `os.path.basename` (POSIX): the final `'/'`-delimited segment, i.e.
everything after the last `'/'` (the whole string when there is none). -/
def basename (s : String) : String :=
  ⟨(s.data.reverse.takeWhile (fun c => c ≠ '/')).reverse⟩

/-- The attribute rewrite performed on one `<img>` element. -/
def img_rewrite (attrs : List (String × String)) : List (String × String) :=
  match attr_get "src" attrs with
  | some src =>
    if src ≠ "" then attr_set "src" ("images/" ++ basename src) attrs
    else attrs
  | none => attrs

mutual

/-- The image pass over the whole tree. -/
def process_images : Node → Node
  | .text s => .text s
  | .elem tag attrs children =>
    .elem tag (if tag = "img" then img_rewrite attrs else attrs)
      (process_images_list children)

def process_images_list : NodeList → NodeList
  | .nil => .nil
  | .cons n rest => .cons (process_images n) (process_images_list rest)

end

/-! ### Link pass of `convert_html_to_md`  (src/2html2md.py lines 37-38)

```python
for a in soup.find_all('a', href=True):
    a['href'] = clean_google_url(a['href'])
```
-/

/-- The attribute rewrite performed on one `<a>` element with an `href`. -/
def link_rewrite (attrs : List (String × String)) : List (String × String) :=
  match attr_get "href" attrs with
  | some href => attr_set "href" (clean_google_url href) attrs
  | none => attrs

mutual

/-- The link pass over the whole tree. -/
def process_links : Node → Node
  | .text s => .text s
  | .elem tag attrs children =>
    .elem tag (if tag = "a" then link_rewrite attrs else attrs)
      (process_links_list children)

def process_links_list : NodeList → NodeList
  | .nil => .nil
  | .cons n rest => .cons (process_links n) (process_links_list rest)

end

/-! ## `tomdtopdf.py`: metadata and content checks and the main workflow

```python
def field_check(metadata):
    required_fields = ["title", "version", "date_modified", "pdf_filename"]
    for field in required_fields:
        if field not in metadata or not metadata[field]:
            print(f"Metadata field '{field}' is missing or empty.")
            sys.exit(1)

def content_check(content):
    if not content:
        print("Markdown content not present.")
        sys.exit(1)
    if not any(line.strip().startswith("#") for line in content.split("\n")):
        print("Suspiciously, the Markdown content does not contain a title; exiting.")
        sys.exit(1)
```

The YAML metadata mapping is modelled as an association list from field
names to string values; Python falsiness of a value is modelled as the
empty string.  `sys.exit(1)` is modelled as an `Except.error` result
that short-circuits the rest of `main`. -/

/-- The required metadata fields of `field_check`. -/
def required_fields : List String := ["title", "version", "date_modified", "pdf_filename"]

/-- A single field passes when present with a non-empty value. -/
def field_ok (metadata : List (String × String)) (f : String) : Bool :=
  match attr_get f metadata with
  | some v => v ≠ ""
  | none => false

/-- Function `field_check`: the first required field that is missing or empty, if
any (`sys.exit(1)` fires on the first bad field). -/
def field_check_bad (metadata : List (String × String)) : Option String :=
  required_fields.find? (fun f => ! field_ok metadata f)

/-- Python `str.strip()` over the ASCII whitespace characters. -/
def pystrip (l : List Char) : List Char :=
  (l.dropWhile py_isspace).reverse.dropWhile py_isspace |>.reverse

/-- Python `line.strip().startswith("#")` for one line. -/
def line_has_title (line : String) : Bool :=
  match pystrip line.data with
  | '#' :: _ => true
  | _ => false

/-- Function `content_check`: `true` when the content is non-empty and some line,
stripped, starts with `'#'`. -/
def content_check_ok (content : String) : Bool :=
  (content != "") && (content.splitOn "\n").any line_has_title

/-- The workflow of `main`: checks run before any transformation, and a
failing check terminates the process with an error before the
`md2html` / `html2pdf` stages (passed in as parameters) are reached. -/
def run_tool (metadata : List (String × String)) (content : String)
    (md2html : List (String × String) → String → String)
    (html2pdf : String → String) : Except String String :=
  match field_check_bad metadata with
  | some f => .error ("Metadata field " ++ f ++ " is missing or empty.")
  | none =>
    if content_check_ok content then
      .ok (html2pdf (md2html metadata content))
    else
      .error "content check failed"

/-! ## Helper lemmas -/

theorem remove_breaks_eq_spec (s : String) : remove_breaks s = remove_breaks_spec s := by
  unfold remove_breaks remove_breaks_spec replace_char
  simp only [List.map_map]
  congr 1
  have hf : ((fun c => if c = '\r' then ' ' else c) ∘ fun c => if c = '\n' then ' ' else c)
      = fun c => if c = '\n' ∨ c = '\r' then ' ' else c := by
    funext c
    by_cases h1 : c = '\n' <;> by_cases h2 : c = '\r' <;>
      simp [h1, h2, Function.comp]
  rw [hf]

mutual

theorem rlb_node_eq_spec (b : Bool) : (t : Node) → rlb_node b t = rlb_node_spec b t
  | .text s => by simp [rlb_node, rlb_node_spec, remove_breaks_eq_spec]
  | .elem tag attrs cs => by
    simp [rlb_node, rlb_node_spec, rlb_list_eq_spec (b || decide (tag = "p")) cs]

theorem rlb_list_eq_spec (b : Bool) : (ns : NodeList) → rlb_list b ns = rlb_list_spec b ns
  | .nil => rfl
  | .cons n rest => by
    simp [rlb_list, rlb_list_spec, rlb_node_eq_spec b n, rlb_list_eq_spec b rest]

end

theorem q_capture_sound {sch rest r : List Char} (h : q_capture sch rest = some r) :
    ∃ cap suf, cap ≠ [] ∧ (∀ c ∈ cap, c ≠ '&') ∧ rest = cap ++ suf ∧
      r = sch ++ cap ∧ cap.length ≤ rest.length := by
  unfold q_capture at h
  by_cases hc : rest.takeWhile (fun c => c ≠ '&') = []
  · rw [if_pos hc] at h
    exact absurd h (by simp)
  · rw [if_neg hc] at h
    injection h with hr
    refine ⟨rest.takeWhile (fun c => c ≠ '&'), rest.dropWhile (fun c => c ≠ '&'),
      hc, ?_, (List.takeWhile_append_dropWhile _ _).symm, hr.symm, ?_⟩
    · intro c hcmem
      have := List.mem_takeWhile_imp hcmem
      simpa using this
    · exact (List.takeWhile_sublist _).length_le

theorem q_capture_complete {sch cap suf : List Char} (hne : cap ≠ [])
    (hall : ∀ c ∈ cap, c ≠ '&') : (q_capture sch (cap ++ suf)).isSome := by
  cases cap with
  | nil => exact absurd rfl hne
  | cons c cs =>
    have hc : c ≠ '&' := hall c (by simp)
    simp [q_capture, List.takeWhile_cons, hc]

theorem try_q_sound {l r : List Char} (h : try_q l = some r) :
    ∃ sch cap suf, (sch = "https://".data ∨ sch = "http://".data) ∧
      cap ≠ [] ∧ (∀ c ∈ cap, c ≠ '&') ∧
      l = 'q' :: '=' :: (sch ++ (cap ++ suf)) ∧
      r = sch ++ cap ∧ r.length + 2 ≤ l.length := by
  unfold try_q at h
  split at h
  · rename_i h10
    obtain ⟨cap, suf, hne, hall, hrest, hr, hlen⟩ := q_capture_sound h
    have hl : l = 'q' :: '=' :: ("https://".data ++ (cap ++ suf)) := by
      conv_lhs => rw [← List.take_append_drop 10 l]
      rw [h10, hrest]
      rfl
    refine ⟨"https://".data, cap, suf, Or.inl rfl, hne, hall, hl, hr, ?_⟩
    have := congrArg List.length hl
    subst hr
    simp [List.length_append] at this ⊢
    omega
  · split at h
    · rename_i h9
      obtain ⟨cap, suf, hne, hall, hrest, hr, hlen⟩ := q_capture_sound h
      have hl : l = 'q' :: '=' :: ("http://".data ++ (cap ++ suf)) := by
        conv_lhs => rw [← List.take_append_drop 9 l]
        rw [h9, hrest]
        rfl
      refine ⟨"http://".data, cap, suf, Or.inr rfl, hne, hall, hl, hr, ?_⟩
      have := congrArg List.length hl
      subst hr
      simp [List.length_append] at this ⊢
      omega
    · exact absurd h (by simp)

theorem find_q_sound : ∀ {l r : List Char}, find_q l = some r →
    hasQL l ∧ r.length + 2 ≤ l.length
  | [], r => by
    intro h
    exact absurd h (by simp [find_q])
  | c :: rest, r => by
    intro h
    unfold find_q at h
    split at h
    · rename_i r' hr'
      injection h with h'
      subst h'
      obtain ⟨sch, cap, suf, hsch, hne, hall, hl, hr, hlen⟩ := try_q_sound hr'
      exact ⟨⟨[], sch, cap, suf, hsch, hne, hall, hl⟩, hlen⟩
    · obtain ⟨hq, hlen⟩ := find_q_sound h
      obtain ⟨pre, sch, cap, suf, hsch, hne, hall, hl⟩ := hq
      refine ⟨⟨c :: pre, sch, cap, suf, hsch, hne, hall, by rw [List.cons_append, hl]⟩, ?_⟩
      exact Nat.le_succ_of_le hlen

theorem find_q_isSome_of_try_q {c : Char} {l : List Char}
    (h : (try_q (c :: l)).isSome) : (find_q (c :: l)).isSome := by
  obtain ⟨r, hr⟩ := Option.isSome_iff_exists.mp h
  unfold find_q
  rw [hr]
  rfl

theorem find_q_isSome_of_rest {c : Char} {rest : List Char}
    (h : (find_q rest).isSome) : (find_q (c :: rest)).isSome := by
  unfold find_q
  cases htq : try_q (c :: rest) <;> simp [htq, h]

theorem find_q_complete : ∀ {l : List Char}, hasQL l → (find_q l).isSome
  | [], hq => by
    obtain ⟨pre, sch, cap, suf, hsch, hne, hall, hl⟩ := hq
    exact absurd hl.symm (by simp)
  | c :: rest, hq => by
    obtain ⟨pre, sch, cap, suf, hsch, hne, hall, hl⟩ := hq
    cases pre with
    | nil =>
      simp only [List.nil_append] at hl
      rw [hl]
      apply find_q_isSome_of_try_q
      rcases hsch with h | h <;> subst h
      · show (q_capture "https://".data (cap ++ suf)).isSome
        exact q_capture_complete hne hall
      · show (q_capture "http://".data (cap ++ suf)).isSome
        exact q_capture_complete hne hall
    | cons p pre' =>
      rw [List.cons_append] at hl
      injection hl with h1 h2
      exact find_q_isSome_of_rest
        (find_q_complete ⟨pre', sch, cap, suf, hsch, hne, hall, h2⟩)

theorem not_hasQPattern_of_find_q_none {url : String} (h : find_q url.data = none) :
    ¬ hasQPattern url := by
  intro hq
  have := find_q_complete hq
  rw [h] at this
  exact absurd this (by simp)

theorem clean_google_url_no_op {url : String} (h : ¬ hasQPattern url) :
    clean_google_url url = url := by
  unfold clean_google_url
  cases hfq : find_q url.data with
  | none => rfl
  | some r => exact absurd (find_q_sound hfq).1 h

theorem clean_google_url_changes {url : String} (h : hasQPattern url) :
    clean_google_url url ≠ url := by
  obtain ⟨r, hr⟩ := Option.isSome_iff_exists.mp (find_q_complete h)
  have hlen := (find_q_sound hr).2
  unfold clean_google_url
  rw [hr]
  intro heq
  have hd : r = url.data := congrArg String.data heq
  rw [hd] at hlen
  omega

theorem joinNL_cons_cons (c : Char) (l : List Char) (ls : List (List Char)) :
    joinNL ((c :: l) :: ls) = c :: joinNL (l :: ls) := by
  cases ls <;> simp [joinNL]

theorem splitNL_exists : ∀ l : List Char, ∃ s ss, splitNL l = s :: ss
  | [] => ⟨[], [], rfl⟩
  | c :: rest => by
    by_cases h : c = '\n'
    · exact ⟨[], splitNL rest, by simp [splitNL, h]⟩
    · obtain ⟨s, ss, hss⟩ := splitNL_exists rest
      exact ⟨c :: s, ss, by simp [splitNL, h, hss]⟩

theorem joinNL_splitNL : ∀ l : List Char, joinNL (splitNL l) = l
  | [] => rfl
  | c :: rest => by
    obtain ⟨s, ss, hss⟩ := splitNL_exists rest
    by_cases h : c = '\n'
    · subst h
      rw [show splitNL ('\n' :: rest) = [] :: splitNL rest from by simp [splitNL], hss,
        show joinNL ([] :: s :: ss) = '\n' :: joinNL (s :: ss) from by simp [joinNL],
        ← hss, joinNL_splitNL rest]
    · rw [show splitNL (c :: rest) = (c :: s) :: ss from by simp [splitNL, h, hss],
        joinNL_cons_cons, ← hss, joinNL_splitNL rest]

theorem promote_line_nil : promote_line [] = [] := rfl

theorem promote_line_hash (l : List Char) : promote_line ('#' :: l) = '#' :: '#' :: l := rfl

theorem promote_line_ne (c : Char) (l : List Char) (h : c ≠ '#') :
    promote_line (c :: l) = c :: l := by
  unfold promote_line
  split
  · rename_i heq
    injection heq with h1 _
    exact absurd h1 h
  · rfl

theorem ihl_go_eq : ∀ l : List Char,
    ihl_go true l = joinNL ((splitNL l).map promote_line) ∧
    (∀ s ss, splitNL l = s :: ss →
      ihl_go false l = joinNL (s :: ss.map promote_line))
  | [] => by
    refine ⟨rfl, fun s ss h => ?_⟩
    replace h : [([] : List Char)] = s :: ss := h
    injection h with h1 h2
    subst h1; subst h2; rfl
  | c :: rest => by
    obtain ⟨ih1, ih2⟩ := ihl_go_eq rest
    obtain ⟨s, ss, hss⟩ := splitNL_exists rest
    by_cases hnl : c = '\n'
    · subst hnl
      have hsplit : splitNL ('\n' :: rest) = [] :: s :: ss := by simp [splitNL, hss]
      have hgo : ∀ b : Bool, ihl_go b ('\n' :: rest) = '\n' :: ihl_go true rest := by
        intro b
        show (if b ∧ ('\n' : Char) = '#' then '#' :: '\n' :: ihl_go false rest
          else '\n' :: ihl_go (decide (('\n' : Char) = '\n')) rest) = '\n' :: ihl_go true rest
        rw [if_neg (by simp)]
        simp
      constructor
      · rw [hgo, hsplit, ih1, hss]
        simp [joinNL, promote_line_nil]
      · intro s' ss' h'
        rw [hsplit] at h'
        injection h' with h1 h2
        subst h1; subst h2
        rw [hgo, ih1, hss]
        simp [joinNL]
    · have hsplit : splitNL (c :: rest) = (c :: s) :: ss := by simp [splitNL, hnl, hss]
      have hfalse : ihl_go false (c :: rest) = c :: ihl_go false rest := by
        show (if (false : Bool) ∧ c = '#' then '#' :: c :: ihl_go false rest
          else c :: ihl_go (decide (c = '\n')) rest) = c :: ihl_go false rest
        rw [if_neg (by simp)]
        simp [hnl]
      have hfrec : ihl_go false rest = joinNL (s :: ss.map promote_line) := ih2 s ss hss
      constructor
      · by_cases hh : c = '#'
        · subst hh
          have htrue : ihl_go true ('#' :: rest) = '#' :: '#' :: ihl_go false rest := by
            show (if (true : Bool) ∧ ('#' : Char) = '#' then '#' :: '#' :: ihl_go false rest
              else '#' :: ihl_go (decide (('#' : Char) = '\n')) rest)
              = '#' :: '#' :: ihl_go false rest
            rw [if_pos (by simp)]
          rw [htrue, hsplit, hfrec]
          simp only [List.map_cons, promote_line_hash]
          rw [joinNL_cons_cons, joinNL_cons_cons]
        · have htrue : ihl_go true (c :: rest) = c :: ihl_go false rest := by
            show (if (true : Bool) ∧ c = '#' then '#' :: c :: ihl_go false rest
              else c :: ihl_go (decide (c = '\n')) rest) = c :: ihl_go false rest
            rw [if_neg (by simp [hh])]
            simp [hnl]
          rw [htrue, hsplit, hfrec]
          simp only [List.map_cons, promote_line_ne c s hh]
          rw [joinNL_cons_cons]
      · intro s' ss' h'
        rw [hsplit] at h'
        injection h' with h1 h2
        subst h1; subst h2
        rw [hfalse, hfrec, joinNL_cons_cons]

theorem increase_heading_levels_eq_spec (s : String) :
    increase_heading_levels s = increase_heading_levels_spec s := by
  unfold increase_heading_levels increase_heading_levels_spec
  rw [(ihl_go_eq s.data).1]

theorem increase_heading_levels_no_op (s : String)
    (h : ∀ li ∈ splitNL s.data, li.head? ≠ some '#') :
    increase_heading_levels s = s := by
  rw [increase_heading_levels_eq_spec]
  unfold increase_heading_levels_spec
  have hpt : ∀ li ∈ splitNL s.data, promote_line li = id li := by
    intro li hli
    cases li with
    | nil => rfl
    | cons c cs =>
      have hc := h _ hli
      simp only [List.head?_cons, ne_eq, Option.some.injEq] at hc
      exact promote_line_ne c cs hc
  have hmap : (splitNL s.data).map promote_line = splitNL s.data := by
    rw [List.map_congr_left hpt, List.map_id]
  rw [hmap, joinNL_splitNL]

theorem esb_go_no_bracket : ∀ (prev : Option Char) (l : List Char),
    '[' ∉ l → esb_go prev l = l
  | _, [], _ => rfl
  | _, [_], _ => rfl
  | prev, c1 :: c2 :: rest, h => by
    have h2 : c2 ≠ '[' := by
      intro e
      subst e
      exact h (by simp)
    have hrec := esb_go_no_bracket (some c1) (c2 :: rest)
      (fun hm => h (List.mem_cons_of_mem _ hm))
    show (if word_boundary prev c1 ∧ prev ≠ some '!' ∧ ¬ py_isspace c1 ∧ c2 = '['
        then c1 :: ' ' :: '[' :: esb_go (some '[') rest
        else c1 :: esb_go (some c1) (c2 :: rest)) = c1 :: c2 :: rest
    rw [if_neg (fun hc => h2 hc.2.2.2), hrec]

theorem takeWhile_append_stop {α : Type} (p : α → Bool) (l1 : List α) (a : α) (l2 : List α)
    (h1 : ∀ x ∈ l1, p x) (ha : ¬ p a) :
    (l1 ++ a :: l2).takeWhile p = l1 := by
  induction l1 with
  | nil => simp [List.takeWhile_cons_of_neg ha]
  | cons x xs ih =>
    rw [List.cons_append, List.takeWhile_cons_of_pos (h1 x (by simp)),
      ih (fun y hy => h1 y (by simp [hy]))]

theorem basename_slash_append (p : String) : basename (p ++ "/photo.png") = "photo.png" := by
  unfold basename
  rw [String.data_append, List.reverse_append]
  have h1 : ("/photo.png".data).reverse ++ p.data.reverse
      = ['g', 'n', 'p', '.', 'o', 't', 'o', 'h', 'p'] ++ '/' :: p.data.reverse := rfl
  rw [h1, takeWhile_append_stop _ _ _ _ (by decide) (by decide)]
  rfl

/-! ## The claims -/

/-- C1: the claim states that the space-before-link step inserts a space
between `c` and a following `'['` exactly when `c` is non-whitespace and
not `'!'`, and in particular that `"Word[link](url)"` becomes
`"Word [link](url)"`.  The code's pattern `(?<!\!)\b(\S)(\[)` also
requires a word boundary in front of `c`, so `"Word[link](url)"` is in
fact returned unchanged (no boundary between `r` and `d`), while
`"a![x]"` gains a space even though `c = '!'`.  This theorem evaluates
the code at those inputs. -/
theorem claim_C1 :
    ensure_space_before_links "Word[link](url)" = "Word[link](url)" ∧
    ensure_space_before_links "![alt](img.png)" = "![alt](img.png)" ∧
    ensure_space_before_links "Word [link](url)" = "Word [link](url)" ∧
    ensure_space_before_links "a![x]" = "a! [x]" := by
  refine ⟨?_, ?_, ?_, ?_⟩ <;> decide

/-- C2: the line-break-collapsing step rewrites exactly the text nodes
contained in a paragraph element, replacing each line feed and each
carriage return with one space independently, and leaves every other
text node unchanged; `"Hello\nWorld\r\n!"` becomes `"Hello World  !"`. -/
theorem claim_C2 :
    (∀ doc : Node, remove_line_breaks_within_paragraphs doc = rlb_node_spec false doc) ∧
    (∀ s : String, remove_breaks s = remove_breaks_spec s) ∧
    remove_breaks "Hello\nWorld\r\n!" = "Hello World  !" := by
  exact ⟨fun doc => rlb_node_eq_spec false doc, remove_breaks_eq_spec, by decide⟩

/-- C3: the link-cleanup step replaces the `href` of every hyperlink
node by the inner URL captured by `q=<scheme>://<up-to-next-&>` when the
pattern occurs, verbatim (no percent-decoding, shown on the spec's
Google-redirect example), and leaves the `href` unchanged when no such
pattern occurs anywhere in it. -/
theorem claim_C3 :
    clean_google_url "https://www.google.com/url?q=https://example.com/page&other=1"
      = "https://example.com/page" ∧
    (∀ url : String, ¬ hasQPattern url → clean_google_url url = url) ∧
    (∀ (attrs : List (String × String)) (cs : NodeList) (href : String),
      attr_get "href" attrs = some href →
      process_links (.elem "a" attrs cs)
        = .elem "a" (attr_set "href" (clean_google_url href) attrs) (process_links_list cs)) := by
  refine ⟨by decide, fun url h => clean_google_url_no_op h, ?_⟩
  intro attrs cs href h
  simp [process_links, link_rewrite, h]

/-- Witness for C3 at concrete inputs: a URL with no `q=` pattern is
unchanged, and a link node's `href` goes through the cleanup. -/
theorem claim_C3_witness :
    clean_google_url "https://example.com/page" = "https://example.com/page" ∧
    process_links (.elem "a" [("href", "https://e.org/x")] .nil)
      = .elem "a" (attr_set "href" (clean_google_url "https://e.org/x")
          [("href", "https://e.org/x")]) (process_links_list .nil) :=
  ⟨claim_C3.2.1 "https://example.com/page"
      (not_hasQPattern_of_find_q_none (by decide)),
    claim_C3.2.2 [("href", "https://e.org/x")] .nil "https://e.org/x" (by decide)⟩

/-- C4 as stated is false at an image node whose `src` attribute is
present but empty: the claim predicts the `src` becomes
`"images/" ++ basename "" = "images/"`, but the code's `if src:` guard
skips the node, leaving `src = ""`. -/
theorem claim_C4_counterexample :
    attr_get "src" [("src", "")] = some "" ∧
    process_images (.elem "img" [("src", "")] .nil) = .elem "img" [("src", "")] .nil ∧
    ("" : String) ≠ "images/" ++ basename "" := by
  refine ⟨by decide, by decide, by decide⟩

/-- C4 (amended): every image node whose `src` attribute is present and
non-empty gets `src` set to `images/<basename>`, where `<basename>` is
the final `/`-delimited segment of the original `src` (purely
syntactic); image nodes lacking a `src` attribute are left unchanged
(and so are those whose `src` is the empty string, per C10). -/
theorem claim_C4 :
    (∀ (attrs : List (String × String)) (cs : NodeList) (src : String),
      attr_get "src" attrs = some src → src ≠ "" →
      process_images (.elem "img" attrs cs)
        = .elem "img" (attr_set "src" ("images/" ++ basename src) attrs)
            (process_images_list cs)) ∧
    (∀ (attrs : List (String × String)) (cs : NodeList),
      attr_get "src" attrs = none →
      process_images (.elem "img" attrs cs) = .elem "img" attrs (process_images_list cs)) ∧
    (∀ p : String, "images/" ++ basename (p ++ "/photo.png") = "images/photo.png") := by
  refine ⟨?_, ?_, ?_⟩
  · intro attrs cs src h hne
    simp [process_images, img_rewrite, h, hne]
  · intro attrs cs h
    simp [process_images, img_rewrite, h]
  · intro p
    rw [basename_slash_append]
    decide

/-- Witness for the amended C4 at concrete inputs. -/
theorem claim_C4_witness :
    process_images (.elem "img" [("src", "/a/b/photo.png")] .nil)
      = .elem "img" (attr_set "src" ("images/" ++ basename "/a/b/photo.png")
          [("src", "/a/b/photo.png")]) (process_images_list .nil) ∧
    process_images (.elem "img" [("alt", "x")] .nil)
      = .elem "img" [("alt", "x")] (process_images_list .nil) :=
  ⟨claim_C4.1 [("src", "/a/b/photo.png")] .nil "/a/b/photo.png" (by decide) (by decide),
    claim_C4.2.1 [("alt", "x")] .nil (by decide)⟩

/-- C5: heading promotion equals the per-line specification (one `'#'`
prepended to every line whose first character is `'#'`, matched only at
line starts, applied independently per line), with no clamping at level
six, as the concrete examples show. -/
theorem claim_C5 :
    (∀ s : String, increase_heading_levels s = increase_heading_levels_spec s) ∧
    increase_heading_levels "# Title\n## Sub" = "## Title\n### Sub" ∧
    increase_heading_levels "###### six" = "####### six" ∧
    increase_heading_levels "a # not" = "a # not" := by
  exact ⟨increase_heading_levels_eq_spec, by decide, by decide, by decide⟩

/-- C6: every normalization step is a total function, and on input
lacking the step's expected shape it is a no-op: an image node without a
`src` attribute is unchanged, an `href` with no `q=` URL pattern is
unchanged, text with no heading line is unchanged, and text with no
`'['` is unchanged. -/
theorem claim_C6 :
    (∀ (attrs : List (String × String)) (cs : NodeList),
      attr_get "src" attrs = none →
      process_images (.elem "img" attrs cs) = .elem "img" attrs (process_images_list cs)) ∧
    (∀ url : String, ¬ hasQPattern url → clean_google_url url = url) ∧
    (∀ s : String, (∀ li ∈ splitNL s.data, li.head? ≠ some '#') →
      increase_heading_levels s = s) ∧
    (∀ s : String, '[' ∉ s.data → ensure_space_before_links s = s) := by
  refine ⟨?_, fun url h => clean_google_url_no_op h, increase_heading_levels_no_op, ?_⟩
  · intro attrs cs h
    simp [process_images, img_rewrite, h]
  · intro s h
    unfold ensure_space_before_links
    rw [esb_go_no_bracket none s.data h]

/-- Witness for C6 at concrete malformed inputs. -/
theorem claim_C6_witness :
    process_images (.elem "img" [("alt", "x")] .nil)
      = .elem "img" [("alt", "x")] (process_images_list .nil) ∧
    clean_google_url "https://plain.example/x" = "https://plain.example/x" ∧
    increase_heading_levels "plain text\nmore text" = "plain text\nmore text" ∧
    ensure_space_before_links "no bracket here" = "no bracket here" :=
  ⟨claim_C6.1 [("alt", "x")] .nil (by decide),
    claim_C6.2.1 "https://plain.example/x" (not_hasQPattern_of_find_q_none (by decide)),
    claim_C6.2.2.1 "plain text\nmore text" (by decide),
    claim_C6.2.2.2 "no bracket here" (by decide)⟩

/-- C7: in the Markdown-to-PDF tool, a missing or empty required
metadata field makes the process exit with an error before any
transformation (the result is an error for every `md2html`/`html2pdf`
stage), and an empty content or one with no stripped line starting with
`'#'` likewise makes it exit before rendering. -/
theorem claim_C7 :
    (∀ (metadata : List (String × String)) (content : String)
        (md2html : List (String × String) → String → String)
        (html2pdf : String → String),
      (∃ fld ∈ required_fields,
        attr_get fld metadata = none ∨ attr_get fld metadata = some "") →
      ∃ e, run_tool metadata content md2html html2pdf = Except.error e) ∧
    (∀ (metadata : List (String × String)) (content : String)
        (md2html : List (String × String) → String → String)
        (html2pdf : String → String),
      (content = "" ∨ ∀ line ∈ content.splitOn "\n", line_has_title line = false) →
      ∃ e, run_tool metadata content md2html html2pdf = Except.error e) := by
  constructor
  · intro metadata content f g h
    obtain ⟨fld, hmem, hbad⟩ := h
    have hok : field_ok metadata fld = false := by
      cases hbad with
      | inl h' => simp [field_ok, h']
      | inr h' => simp [field_ok, h']
    have hfind : (field_check_bad metadata).isSome := by
      unfold field_check_bad
      rw [List.find?_isSome]
      exact ⟨fld, hmem, by simp [hok]⟩
    obtain ⟨f', hf'⟩ := Option.isSome_iff_exists.mp hfind
    exact ⟨_, by unfold run_tool; rw [hf']⟩
  · intro metadata content f g h
    cases hfc : field_check_bad metadata with
    | some f' => exact ⟨_, by unfold run_tool; rw [hfc]⟩
    | none =>
      have hok : content_check_ok content = false := by
        unfold content_check_ok
        cases h with
        | inl h' => subst h'; simp
        | inr h' =>
          have hany : (content.splitOn "\n").any line_has_title = false := by
            rw [List.any_eq_false]
            intro line hline
            simp [h' line hline]
          simp [hany]
      exact ⟨_, by unfold run_tool; rw [hfc, hok]; rfl⟩

/-- Witness for C7: a metadata map missing `version` exits with an
error, and an empty content exits with an error, for a concrete
rendering stage. -/
theorem claim_C7_witness :
    (∃ e, run_tool [("title", "t")] "# ok" (fun _ c => c) (fun h => h)
      = Except.error e) ∧
    (∃ e, run_tool [("title", "t"), ("version", "1"), ("date_modified", "d"),
        ("pdf_filename", "f")] "" (fun _ c => c) (fun h => h)
      = Except.error e) :=
  ⟨claim_C7.1 [("title", "t")] "# ok" (fun _ c => c) (fun h => h)
      ⟨"version", by decide, Or.inl (by decide)⟩,
    claim_C7.2 [("title", "t"), ("version", "1"), ("date_modified", "d"),
        ("pdf_filename", "f")] "" (fun _ c => c) (fun h => h) (Or.inl rfl)⟩

/-- C9: the link-cleanup step rewrites an `href` exactly when it
contains the substring pattern `q=<http-or-https-URL>` anywhere in the
string — the `q` need not be a standalone query parameter, as the
`freq=` example shows. -/
theorem claim_C9 :
    (∀ url : String, clean_google_url url ≠ url ↔ hasQPattern url) ∧
    clean_google_url "https://host/?freq=https://x.com&a=1" = "https://x.com" := by
  refine ⟨fun url => ⟨?_, fun h => clean_google_url_changes h⟩, by decide⟩
  intro hne
  by_contra h
  exact hne (clean_google_url_no_op h)

/-- C10: an image node whose `src` attribute is present but equal to the
empty string is left unchanged by the image-path rewrite. -/
theorem claim_C10 :
    (∀ (attrs : List (String × String)) (cs : NodeList),
      attr_get "src" attrs = some "" →
      process_images (.elem "img" attrs cs) = .elem "img" attrs (process_images_list cs)) ∧
    (∀ attrs : List (String × String),
      attr_get "src" attrs = some "" →
      process_images (.elem "img" attrs .nil) = .elem "img" attrs .nil) := by
  have hbase : ∀ (attrs : List (String × String)) (cs : NodeList),
      attr_get "src" attrs = some "" →
      process_images (.elem "img" attrs cs) = .elem "img" attrs (process_images_list cs) := by
    intro attrs cs h
    simp [process_images, img_rewrite, h]
  exact ⟨hbase, fun attrs h => hbase attrs .nil h⟩

/-- Witness for C10 at the concrete empty-`src` image node. -/
theorem claim_C10_witness :
    process_images (.elem "img" [("src", "")] .nil) = .elem "img" [("src", "")] .nil :=
  claim_C10.2 [("src", "")] (by decide)

/-- C8: heading promotion is not idempotent: on `"# a"` one application
gives `"## a"`, two applications give `"### a"`, which differ. -/
theorem claim_C8 :
    increase_heading_levels "# a" = "## a" ∧
    increase_heading_levels (increase_heading_levels "# a") = "### a" ∧
    increase_heading_levels (increase_heading_levels "# a") ≠ increase_heading_levels "# a" := by
  refine ⟨?_, ?_, ?_⟩ <;> decide

end TomdToPdf
